import Mathlib

/- Verification of the Conway's Game of Life engine in RustLife (src/main.rs).
   The Rust code is shallowly embedded: `Vec<CellState>` becomes `List CellState`,
   `usize` becomes `Nat`, the `as i32` casts in neighbor counting become `Int`
   coercions, and the RNG `rand::random::<bool>()` is modelled as a boolean
   oracle indexed by cell position.  The rayon-parallel chunked write of
   `next_state` is embedded as its (deterministic) sequential linearization:
   the chunks write disjoint slices, so any order yields the same list. -/

namespace RustLife

inductive CellState where
  | Dead : CellState
  | Alive : CellState
deriving DecidableEq

structure ConwayState where
  cells : List CellState
  width : Nat
  height : Nat
deriving DecidableEq

/-- `ConwayState::new(width, height)`: allocate `width*height` Dead cells, then
    set each cell Alive when the RNG draw for its index is true.  The Rust code
    performs one `rand::random::<bool>()` call per cell, in index order; the
    oracle `rand` gives the outcome of the draw for each index. -/
def ConwayState.new (width height : Nat) (rand : Nat → Bool) : ConwayState :=
  { cells := (List.range (width * height)).map
      (fun i => if rand i then CellState.Alive else CellState.Dead)
    width := width
    height := height }

/-- The constant `NEIGHBORS` array from `count_alive_neighbors`: pairs are
    `(j, i)`, i.e. (row offset, column offset), exactly as in the source. -/
def NEIGHBORS : List (Int × Int) :=
  [(-1, -1), (-1, 0), (-1, 1), (0, -1), (0, 1), (1, -1), (1, 0), (1, 1)]

/-- `ConwayState::count_alive_neighbors(x, y)`.  The source casts `x`, `y` to
    `i32`, guards each offset against the grid bounds, and counts the cell at
    `(y+j)*width + (x+i)` when it is Alive.  The source's `self.cells[lid]`
    (which panics out of bounds) is embedded as `getD lid Dead`; the in-bounds
    safety of every guarded access is proved separately (`nextStateAccessSafe`). -/
def ConwayState.count_alive_neighbors (g : ConwayState) (x y : Nat) : Nat :=
  let xi : Int := x
  let yi : Int := y
  NEIGHBORS.foldl (fun count ji =>
    if yi + ji.1 ≥ 0 ∧ xi + ji.2 ≥ 0 ∧ yi + ji.1 < (g.height : Int) ∧
        xi + ji.2 < (g.width : Int) then
      let linear_id := (yi + ji.1).toNat * g.width + (xi + ji.2).toNat
      if g.cells.getD linear_id CellState.Dead = CellState.Alive then count + 1
      else count
    else count) 0

/-- `ConwayState::next_cell_state(x, y)`: the match on (cell state, live count)
    exactly as written in the source. -/
def ConwayState.next_cell_state (g : ConwayState) (x y : Nat) : CellState :=
  let linear_id := y * g.width + x
  let cell_state := g.cells.getD linear_id CellState.Dead
  let live_count := g.count_alive_neighbors x y
  match cell_state, live_count with
  | CellState.Dead, 3 => CellState.Alive
  | CellState.Alive, 2 => CellState.Alive
  | CellState.Alive, 3 => CellState.Alive
  | _, _ => CellState.Dead

/-- The cell buffer produced by `ConwayState::next_state(&self, scratch)`.
    `rows_in_chunk` is the source constant `2`, generalized to a parameter so
    that chunk-size independence can be stated.  The source splits
    `scratch.cells` into `par_chunks_mut(elements_in_chunk)` slices —
    `num_slices` of them, the rayon chunk count `ceil(len/size)` — and chunk
    `c` writes `self.next_cell_state(i, j + row)` at slice-relative index
    `j*width + i`, i.e. at absolute index `c*elements_in_chunk + j*width + i`,
    embedded here as a `List.set` at that absolute index. -/
def ConwayState.next_state_cells (g : ConwayState) (rows_in_chunk : Nat)
    (scratch : List CellState) : List CellState :=
  let elements_in_chunk := rows_in_chunk * g.width
  let num_chunks := g.cells.length / elements_in_chunk
  let rows_in_last_chunk := (g.cells.length - num_chunks * elements_in_chunk) / g.width
  let num_slices := if elements_in_chunk = 0 then 0
    else (scratch.length + elements_in_chunk - 1) / elements_in_chunk
  (List.range num_slices).foldl (fun acc c =>
    let row := c * rows_in_chunk
    let rows := if c < num_chunks then rows_in_chunk else rows_in_last_chunk
    (List.range rows).foldl (fun acc j =>
      (List.range g.width).foldl (fun acc i =>
        acc.set (c * elements_in_chunk + (j * g.width + i))
          (g.next_cell_state i (j + row))) acc) acc) scratch

/-- `ConwayState::next_state`, with the source's `rows_in_chunk = 2`. -/
def ConwayState.next_state (g scratch : ConwayState) : ConwayState :=
  { scratch with cells := g.next_state_cells 2 scratch.cells }

/-- `ConwayState::swap_state`: `std::mem::swap` of the two cell vectors; widths
    and heights are untouched.  Returns the pair (current, scratch) after the
    swap. -/
def ConwayState.swap_state (g scratch : ConwayState) : ConwayState × ConwayState :=
  ({ g with cells := scratch.cells }, { scratch with cells := g.cells })

/-- The grid well-formedness invariant: `cells.len() == width*height`. -/
def wfState (g : ConwayState) : Prop :=
  g.cells.length = g.width * g.height

instance (g : ConwayState) : Decidable (wfState g) := by
  unfold wfState; infer_instance

/-- One iteration of the simulation thread's loop body in `main`:
    `next_state` into the thread-local scratch under the read lock, then
    `swap_state` under the write lock.  The pair is (current, scratch). -/
def simStep (p : ConwayState × ConwayState) : ConwayState × ConwayState :=
  p.1.swap_state (p.1.next_state p.2)

/-- Modelled from the spec: the naive sequential reference stepper, mapping
    `next_cell_state` over every position of the prior generation (linear
    index `n` holds position `(n % width, n / width)`). -/
def referenceStep (g : ConwayState) : ConwayState :=
  { g with
    cells := (List.range (g.width * g.height)).map
      (fun n => g.next_cell_state (n % g.width) (n / g.width)) }

/-- All slice accesses performed by one call `g.next_state scratch` (with the
    given `rows_in_chunk`), as checkable bounds: the chunk-size divisor is
    nonzero (`par_chunks_mut` and the `/` in the source panic on zero), every
    write `cells[j*width + i]` of chunk `c` lands inside that chunk's slice
    (whose length is `min elements_in_chunk (len - c*elements_in_chunk)`), and
    every read performed by `next_cell_state` / `count_alive_neighbors` on the
    current grid is in bounds. -/
def neighborReadsInBounds (g : ConwayState) (x y : Nat) : Prop :=
  ∀ ji ∈ NEIGHBORS,
    ((y : Int) + ji.1 ≥ 0 ∧ (x : Int) + ji.2 ≥ 0 ∧
     (y : Int) + ji.1 < (g.height : Int) ∧ (x : Int) + ji.2 < (g.width : Int)) →
    ((y : Int) + ji.1).toNat * g.width + ((x : Int) + ji.2).toNat < g.cells.length

def nextCellReadsInBounds (g : ConwayState) (x y : Nat) : Prop :=
  y * g.width + x < g.cells.length ∧ neighborReadsInBounds g x y

def nextStateAccessSafe (g scratch : ConwayState) (rows_in_chunk : Nat) : Prop :=
  0 < rows_in_chunk * g.width ∧
  (∀ c < (scratch.cells.length + rows_in_chunk * g.width - 1) / (rows_in_chunk * g.width),
    ∀ j < (if c < g.cells.length / (rows_in_chunk * g.width) then rows_in_chunk
           else (g.cells.length -
             (g.cells.length / (rows_in_chunk * g.width)) * (rows_in_chunk * g.width)) / g.width),
      ∀ i < g.width,
        j * g.width + i <
          min (rows_in_chunk * g.width)
            (scratch.cells.length - c * (rows_in_chunk * g.width)) ∧
        nextCellReadsInBounds g i (j + c * rows_in_chunk))

instance (g : ConwayState) (x y : Nat) : Decidable (neighborReadsInBounds g x y) := by
  unfold neighborReadsInBounds; infer_instance

instance (g : ConwayState) (x y : Nat) : Decidable (nextCellReadsInBounds g x y) := by
  unfold nextCellReadsInBounds; infer_instance

instance (g scratch : ConwayState) (r : Nat) : Decidable (nextStateAccessSafe g scratch r) := by
  unfold nextStateAccessSafe; infer_instance

/-! Generic list and arithmetic helpers. -/

theorem foldl_congr_mem {α β : Type} (f g : β → α → β) (l : List α)
    (H : ∀ a ∈ l, ∀ b, f b a = g b a) : ∀ b, l.foldl f b = l.foldl g b := by
  induction l with
  | nil => intro b; rfl
  | cons x xs ih =>
    intro b
    simp only [List.foldl_cons]
    rw [H x (List.mem_cons_self x xs)]
    exact ih (fun a ha b => H a (List.mem_cons_of_mem x ha) b) (g b x)

theorem foldl_length_invariant {α β : Type} (F : List α → β → List α)
    (P : ∀ l b, (F l b).length = l.length) (L : List β) :
    ∀ l : List α, (L.foldl F l).length = l.length := by
  induction L with
  | nil => intro l; rfl
  | cons x xs ih =>
    intro l
    simp only [List.foldl_cons]
    rw [ih (F l x), P l x]

theorem foldl_set_getElem? {α : Type} (f : Nat → α) :
    ∀ (P : List Nat) (l : List α) (n : Nat),
    (P.foldl (fun acc p => acc.set p (f p)) l)[n]?
      = if n ∈ P ∧ n < l.length then some (f n) else l[n]? := by
  intro P
  induction P with
  | nil => intro l n; simp
  | cons p P ih =>
    intro l n
    simp only [List.foldl_cons]
    rw [ih, List.length_set]
    by_cases hmem : n ∈ P ∧ n < l.length
    · rw [if_pos hmem, if_pos ⟨List.mem_cons_of_mem p hmem.1, hmem.2⟩]
    · rw [if_neg hmem]
      by_cases hn : n = p
      · subst hn
        by_cases hlen : n < l.length
        · have hset : (l.set n (f n))[n]? = some (f n) := by
            simp [List.getElem?_set_self', List.getElem?_eq_getElem hlen]
          rw [hset, if_pos ⟨List.mem_cons_self n P, hlen⟩]
        · have hset : (l.set n (f n))[n]? = none :=
            List.getElem?_eq_none (by rw [List.length_set]; omega)
          rw [hset, if_neg (fun hc => hlen hc.2),
            List.getElem?_eq_none (by omega)]
      · rw [List.getElem?_set_ne (fun hc => hn hc.symm),
          if_neg (fun hc => hmem ⟨by
            rcases List.mem_cons.mp hc.1 with h | h
            · exact absurd h hn
            · exact h, hc.2⟩)]

theorem lt_ceil_div_iff (c e L : Nat) (he : 0 < e) :
    c < (L + e - 1) / e ↔ c * e < L := by
  rw [Nat.lt_iff_add_one_le, Nat.le_div_iff_mul_le he]
  have h1 : (c + 1) * e = c * e + e := by ring
  omega

theorem linear_idx_lt {w h : Nat} (a b : Nat) (ha : a < h) (hb : b < w) :
    a * w + b < w * h := by
  have e1 : (a + 1) * w = a * w + w := by ring
  have e2 : (a + 1) * w ≤ h * w := Nat.mul_le_mul_right w ha
  have e3 : h * w = w * h := Nat.mul_comm h w
  omega

/-! Flattening the chunked stepper: the nested fold of `next_state_cells` is a
    single fold of `List.set` over the list of absolute write positions. -/

/-- Number of rows chunk `c` writes: `rows_in_chunk` for a full chunk,
    `rows_in_last_chunk` for the final truncated one. -/
def rowsOfChunk (g : ConwayState) (r c : Nat) : Nat :=
  if c < g.cells.length / (r * g.width) then r
  else (g.cells.length - g.cells.length / (r * g.width) * (r * g.width)) / g.width

/-- Absolute indices written by chunk `c` of `next_state`. -/
def chunkPositions (g : ConwayState) (r c : Nat) : List Nat :=
  ((List.range (rowsOfChunk g r c)).map
    (fun j => (List.range g.width).map (fun i => (c * r + j) * g.width + i))).flatten

/-- Absolute indices written by all chunks of `next_state` into a scratch
    buffer of length `L`. -/
def allPositions (g : ConwayState) (r L : Nat) : List Nat :=
  ((List.range (if r * g.width = 0 then 0 else (L + r * g.width - 1) / (r * g.width))).map
    (chunkPositions g r)).flatten

theorem inner_fold_eq (g : ConwayState) (r c j : Nat) (hw : 0 < g.width)
    (acc : List CellState) :
    (List.range g.width).foldl (fun acc i =>
        acc.set (c * (r * g.width) + (j * g.width + i))
          (g.next_cell_state i (j + c * r))) acc
      = ((List.range g.width).map (fun i => (c * r + j) * g.width + i)).foldl
          (fun acc p => acc.set p (g.next_cell_state (p % g.width) (p / g.width))) acc := by
  rw [List.foldl_map]
  refine (foldl_congr_mem _ _ _ ?_ acc).symm
  intro i hi b
  have hiw : i < g.width := List.mem_range.mp hi
  have hpos : (c * r + j) * g.width + i = c * (r * g.width) + (j * g.width + i) := by ring
  have hmod : ((c * r + j) * g.width + i) % g.width = i := by
    rw [Nat.mul_comm (c * r + j) g.width, Nat.mul_add_mod, Nat.mod_eq_of_lt hiw]
  have hdiv : ((c * r + j) * g.width + i) / g.width = c * r + j := by
    rw [Nat.mul_comm (c * r + j) g.width, Nat.mul_add_div hw, Nat.div_eq_of_lt hiw,
      Nat.add_zero]
  rw [hmod, hdiv, hpos, Nat.add_comm (c * r) j]

theorem next_state_cells_eq_posFold (g : ConwayState) (r : Nat) (hw : 0 < g.width)
    (sc : List CellState) :
    g.next_state_cells r sc
      = (allPositions g r sc.length).foldl
          (fun acc p => acc.set p (g.next_cell_state (p % g.width) (p / g.width))) sc := by
  unfold ConwayState.next_state_cells allPositions
  rw [List.foldl_flatten, List.foldl_map]
  refine foldl_congr_mem _ _ _ ?_ sc
  intro c _ acc
  unfold chunkPositions
  rw [List.foldl_flatten, List.foldl_map]
  refine foldl_congr_mem _ _ _ ?_ acc
  intro j _ acc2
  exact inner_fold_eq g r c j hw acc2

/-- The chunk decomposition covers exactly the indices `[0, width*height)`:
    no gap and no write outside the grid, for any positive chunk size,
    including heights not divisible by it. -/
theorem mem_allPositions (g : ConwayState) (r : Nat) (hw : 0 < g.width) (hr : 0 < r)
    (hg : wfState g) (n : Nat) :
    n ∈ allPositions g r (g.width * g.height) ↔ n < g.width * g.height := by
  have he : 0 < r * g.width := Nat.mul_pos hr hw
  have hlen : g.cells.length = g.width * g.height := hg
  have hnc : g.cells.length / (r * g.width) = g.height / r := by
    rw [hlen, Nat.mul_comm g.width g.height]
    exact Nat.mul_div_mul_right g.height r hw
  have hq := Nat.div_add_mod g.height r
  have hm : g.height % r < r := Nat.mod_lt _ hr
  have hrl : (g.cells.length - g.cells.length / (r * g.width) * (r * g.width)) / g.width
      = g.height % r := by
    rw [hnc, hlen]
    have e1 : g.height / r * (r * g.width) = r * (g.height / r) * g.width := by ring
    have e3 : g.width * g.height
        = r * (g.height / r) * g.width + g.height % r * g.width := by
      calc g.width * g.height
          = g.width * (r * (g.height / r) + g.height % r) := by rw [hq]
        _ = r * (g.height / r) * g.width + g.height % r * g.width := by ring
    have e2 : g.width * g.height - r * (g.height / r) * g.width
        = g.height % r * g.width := by omega
    rw [e1, e2, Nat.mul_div_cancel _ hw]
  unfold allPositions chunkPositions rowsOfChunk
  rw [if_neg (Nat.pos_iff_ne_zero.mp he)]
  simp only [List.mem_flatten, List.mem_map, List.mem_range]
  constructor
  · rintro ⟨l, ⟨c, hc, rfl⟩, hl⟩
    rcases List.mem_flatten.mp hl with ⟨row, hrow, hn⟩
    rcases List.mem_map.mp hrow with ⟨j, hj, rfl⟩
    rcases List.mem_map.mp hn with ⟨i, hi, rfl⟩
    have hj' := List.mem_range.mp hj
    have hi' := List.mem_range.mp hi
    have hcT : c * (r * g.width) < g.width * g.height :=
      (lt_ceil_div_iff c (r * g.width) (g.width * g.height) he).mp hc
    have hy : c * r + j < g.height := by
      by_cases hfull : c < g.cells.length / (r * g.width)
      · rw [if_pos hfull] at hj'
        rw [hnc] at hfull
        have h1 : (c + 1) * r ≤ g.height / r * r := Nat.mul_le_mul_right r hfull
        have h2 : g.height / r * r ≤ g.height := Nat.div_mul_le_self g.height r
        have h3 : (c + 1) * r = c * r + r := by ring
        omega
      · rw [if_neg hfull, hrl] at hj'
        rw [hnc] at hfull
        have hcr : c * r < g.height := by
          have h1 : c * r * g.width < g.height * g.width := by
            have : c * (r * g.width) = c * r * g.width := by ring
            have : g.width * g.height = g.height * g.width := by ring
            omega
          exact Nat.lt_of_mul_lt_mul_right h1
        have hub : c * r < (g.height / r + 1) * r := by
          have h4 : (g.height / r + 1) * r = g.height / r * r + r := by ring
          have h5 : r * (g.height / r) = g.height / r * r := by ring
          omega
        have hcq : c ≤ g.height / r := by
          have := Nat.lt_of_mul_lt_mul_right hub
          omega
        have hcq' : c = g.height / r := le_antisymm hcq (by omega)
        subst hcq'
        have h5 : r * (g.height / r) = g.height / r * r := by ring
        omega
    exact linear_idx_lt (c * r + j) i hy hi'
  · intro hn
    have hx : n % g.width < g.width := Nat.mod_lt _ hw
    have hy : n / g.width < g.height := by
      rw [Nat.div_lt_iff_lt_mul hw, Nat.mul_comm g.height g.width]
      exact hn
    have hyq := Nat.div_add_mod (n / g.width) r
    have hym : n / g.width % r < r := Nat.mod_lt _ hr
    refine ⟨_, ⟨n / g.width / r, ?_, rfl⟩, ?_⟩
    · rw [lt_ceil_div_iff _ _ _ he]
      have h1 : n / g.width / r * r ≤ n / g.width := Nat.div_mul_le_self _ r
      have h2 : n / g.width / r * (r * g.width) = n / g.width / r * r * g.width := by ring
      have h3 : n / g.width / r * r * g.width ≤ n / g.width * g.width :=
        Nat.mul_le_mul_right g.width h1
      have h4 : n / g.width * g.width + n % g.width < g.width * g.height := by
        have h5 : g.width * (n / g.width) + n % g.width = n := Nat.div_add_mod n g.width
        have h6 : n / g.width * g.width = g.width * (n / g.width) := by ring
        omega
      omega
    · rw [List.mem_flatten]
      refine ⟨_, List.mem_map.mpr ⟨n / g.width % r, List.mem_range.mpr ?_, rfl⟩, ?_⟩
      · by_cases hfull : n / g.width / r < g.cells.length / (r * g.width)
        · rw [if_pos hfull]; exact hym
        · rw [if_neg hfull, hrl]
          rw [hnc] at hfull
          have hcq : g.height / r ≤ n / g.width / r := by omega
          have hcq2 : n / g.width / r ≤ g.height / r :=
            Nat.div_le_div_right (Nat.le_of_lt hy)
          have hcq' : n / g.width / r = g.height / r := le_antisymm hcq2 hcq
          have h11 : r * (n / g.width / r) = r * (g.height / r) := by rw [hcq']
          omega
      · refine List.mem_map.mpr ⟨n % g.width, List.mem_range.mpr hx, ?_⟩
        have h7 : n / g.width / r * r + n / g.width % r = n / g.width := by
          have h8 : r * (n / g.width / r) = n / g.width / r * r := by ring
          omega
        rw [h7]
        have h9 : g.width * (n / g.width) + n % g.width = n := Nat.div_add_mod n g.width
        have h10 : n / g.width * g.width = g.width * (n / g.width) := by ring
        omega

/-- `next_state_cells` never changes the length of the scratch buffer
    (every effect is a `List.set`). -/
theorem next_state_cells_length (g : ConwayState) (r : Nat) (sc : List CellState) :
    (g.next_state_cells r sc).length = sc.length := by
  unfold ConwayState.next_state_cells
  refine foldl_length_invariant _ (fun l c => ?_) _ sc
  refine foldl_length_invariant _ (fun l j => ?_) _ l
  refine foldl_length_invariant _ (fun l i => ?_) _ l
  exact List.length_set l _ _

/-- Master lemma: for well-formed grids of positive width and any positive
    chunk size, the chunked stepper fills the scratch buffer with exactly the
    map of `next_cell_state` over all linear indices. -/
theorem next_state_cells_eq_map (g : ConwayState) (r : Nat) (sc : List CellState)
    (hw : 0 < g.width) (hr : 0 < r) (hg : wfState g)
    (hs : sc.length = g.width * g.height) :
    g.next_state_cells r sc
      = (List.range (g.width * g.height)).map
          (fun n => g.next_cell_state (n % g.width) (n / g.width)) := by
  rw [next_state_cells_eq_posFold g r hw sc, hs]
  apply List.ext_getElem?
  intro n
  rw [foldl_set_getElem?]
  by_cases hn : n < g.width * g.height
  · rw [if_pos ⟨(mem_allPositions g r hw hr hg n).mpr hn, by omega⟩,
      List.getElem?_map, List.getElem?_range hn]
    rfl
  · rw [if_neg (fun hc => hn ((mem_allPositions g r hw hr hg n).mp hc.1)),
      List.getElem?_eq_none (by omega),
      List.getElem?_eq_none (by rw [List.length_map, List.length_range]; omega)]

theorem foldl_add_eq_sum {α : Type} (f : α → Nat) (l : List α) :
    ∀ a : Nat, l.foldl (fun acc x => acc + f x) a = a + (l.map f).sum := by
  induction l with
  | nil => intro a; simp
  | cons x xs ih =>
    intro a
    simp only [List.foldl_cons, List.map_cons, List.sum_cons, ih (a + f x)]
    omega

theorem sum_map_le_length {α : Type} (f : α → Nat) (l : List α)
    (H : ∀ a ∈ l, f a ≤ 1) : (l.map f).sum ≤ l.length := by
  induction l with
  | nil => simp
  | cons x xs ih =>
    simp only [List.map_cons, List.sum_cons, List.length_cons]
    have h1 := H x (List.mem_cons_self x xs)
    have h2 := ih (fun a ha => H a (List.mem_cons_of_mem x ha))
    omega

/-! Test fixtures: the 5×5 blinker grids and an all-dead 5×5 scratch. -/

def blinkerH : ConwayState :=
  ⟨[CellState.Dead, CellState.Dead, CellState.Dead, CellState.Dead, CellState.Dead,
    CellState.Dead, CellState.Dead, CellState.Dead, CellState.Dead, CellState.Dead,
    CellState.Dead, CellState.Alive, CellState.Alive, CellState.Alive, CellState.Dead,
    CellState.Dead, CellState.Dead, CellState.Dead, CellState.Dead, CellState.Dead,
    CellState.Dead, CellState.Dead, CellState.Dead, CellState.Dead, CellState.Dead],
   5, 5⟩

def blinkerV : ConwayState :=
  ⟨[CellState.Dead, CellState.Dead, CellState.Dead, CellState.Dead, CellState.Dead,
    CellState.Dead, CellState.Dead, CellState.Alive, CellState.Dead, CellState.Dead,
    CellState.Dead, CellState.Dead, CellState.Alive, CellState.Dead, CellState.Dead,
    CellState.Dead, CellState.Dead, CellState.Alive, CellState.Dead, CellState.Dead,
    CellState.Dead, CellState.Dead, CellState.Dead, CellState.Dead, CellState.Dead],
   5, 5⟩

def deadFive : ConwayState := ⟨List.replicate 25 CellState.Dead, 5, 5⟩

/-! The claims. -/

/-- C1: for every well-formed grid and in-range position, `next_cell_state`
    returns Alive iff the cell is Dead with exactly 3 live neighbors or Alive
    with 2 or 3 live neighbors; in all other state/count combinations it
    returns Dead.  (The embedding of `next_cell_state` is a pure function of
    the grid, so it has no side effect on it.) -/
theorem c1_next_cell_state_rule (g : ConwayState) (x y : Nat) (c : CellState)
    (hc : g.cells[y * g.width + x]? = some c) :
    g.next_cell_state x y
      = if (c = CellState.Dead ∧ g.count_alive_neighbors x y = 3)
           ∨ (c = CellState.Alive ∧
               (g.count_alive_neighbors x y = 2 ∨ g.count_alive_neighbors x y = 3))
        then CellState.Alive else CellState.Dead := by
  have hgd : g.cells.getD (y * g.width + x) CellState.Dead = c := by
    rw [List.getD_eq_getElem?_getD, hc]; rfl
  simp only [ConwayState.next_cell_state, hgd]
  rcases c with _ | _ <;>
    rcases hcount : g.count_alive_neighbors x y with _ | _ | _ | _ | k <;>
    simp

/-- Witness for C1 at a concrete grid and position. -/
theorem c1_witness :
    blinkerH.cells[1 * blinkerH.width + 2]? = some CellState.Dead ∧
    blinkerH.next_cell_state 2 1
      = if (CellState.Dead = CellState.Dead ∧ blinkerH.count_alive_neighbors 2 1 = 3)
           ∨ (CellState.Dead = CellState.Alive ∧
               (blinkerH.count_alive_neighbors 2 1 = 2 ∨
                blinkerH.count_alive_neighbors 2 1 = 3))
        then CellState.Alive else CellState.Dead :=
  ⟨by decide, c1_next_cell_state_rule blinkerH 2 1 CellState.Dead (by decide)⟩

/-- C2: `count_alive_neighbors` counts the Alive cells among exactly the 8
    Moore-neighborhood offsets, never counting a position outside
    `[0,width) × [0,height)` (no wraparound); the result is at most 8, and at
    the corner `(0,0)` at most 3 offsets can contribute. -/
theorem c2_count_alive_neighbors (g : ConwayState) (x y : Nat)
    (hg : wfState g) (hx : x < g.width) (hy : y < g.height) :
    g.count_alive_neighbors x y
      = (NEIGHBORS.map (fun ji =>
          if ((y : Int) + ji.1 ≥ 0 ∧ (x : Int) + ji.2 ≥ 0 ∧
               (y : Int) + ji.1 < (g.height : Int) ∧ (x : Int) + ji.2 < (g.width : Int)) ∧
             g.cells[((y : Int) + ji.1).toNat * g.width + ((x : Int) + ji.2).toNat]?
               = some CellState.Alive
          then 1 else 0)).sum
    ∧ g.count_alive_neighbors x y ≤ 8
    ∧ (x = 0 → y = 0 → g.count_alive_neighbors x y ≤ 3) := by
  have hpt : ∀ ji ∈ NEIGHBORS, ∀ b : Nat,
      (if (y : Int) + ji.1 ≥ 0 ∧ (x : Int) + ji.2 ≥ 0 ∧
           (y : Int) + ji.1 < (g.height : Int) ∧ (x : Int) + ji.2 < (g.width : Int) then
         if g.cells.getD (((y : Int) + ji.1).toNat * g.width + ((x : Int) + ji.2).toNat)
              CellState.Dead = CellState.Alive then b + 1 else b
       else b)
      = b + (if ((y : Int) + ji.1 ≥ 0 ∧ (x : Int) + ji.2 ≥ 0 ∧
               (y : Int) + ji.1 < (g.height : Int) ∧ (x : Int) + ji.2 < (g.width : Int)) ∧
             g.cells[((y : Int) + ji.1).toNat * g.width + ((x : Int) + ji.2).toNat]?
               = some CellState.Alive
          then 1 else 0) := by
    intro ji _ b
    by_cases hguard : (y : Int) + ji.1 ≥ 0 ∧ (x : Int) + ji.2 ≥ 0 ∧
        (y : Int) + ji.1 < (g.height : Int) ∧ (x : Int) + ji.2 < (g.width : Int)
    · have hyj : ((y : Int) + ji.1).toNat < g.height := by omega
      have hxi : ((x : Int) + ji.2).toNat < g.width := by omega
      have hlid : ((y : Int) + ji.1).toNat * g.width + ((x : Int) + ji.2).toNat
          < g.cells.length := by
        rw [hg]; exact linear_idx_lt _ _ hyj hxi
      have hsome := List.getElem?_eq_getElem hlid
      rw [if_pos hguard, List.getD_eq_getElem?_getD, hsome, Option.getD_some]
      by_cases halive :
          g.cells[((y : Int) + ji.1).toNat * g.width + ((x : Int) + ji.2).toNat] =
            CellState.Alive
      · rw [if_pos halive, if_pos ⟨hguard, by rw [halive]⟩]
      · rw [if_neg halive, if_neg (fun hcon => halive (Option.some.inj hcon.2))]
        omega
    · rw [if_neg hguard, if_neg (fun hcon => hguard hcon.1)]
      omega
  have key : g.count_alive_neighbors x y
      = (NEIGHBORS.map (fun ji =>
          if ((y : Int) + ji.1 ≥ 0 ∧ (x : Int) + ji.2 ≥ 0 ∧
               (y : Int) + ji.1 < (g.height : Int) ∧ (x : Int) + ji.2 < (g.width : Int)) ∧
             g.cells[((y : Int) + ji.1).toNat * g.width + ((x : Int) + ji.2).toNat]?
               = some CellState.Alive
          then 1 else 0)).sum := by
    simp only [ConwayState.count_alive_neighbors]
    rw [foldl_congr_mem _ _ NEIGHBORS hpt 0, foldl_add_eq_sum, Nat.zero_add]
  refine ⟨key, ?_, ?_⟩
  · rw [key]
    have h8 : NEIGHBORS.length = 8 := by decide
    have hle := sum_map_le_length (fun ji : Int × Int =>
        if ((y : Int) + ji.1 ≥ 0 ∧ (x : Int) + ji.2 ≥ 0 ∧
             (y : Int) + ji.1 < (g.height : Int) ∧ (x : Int) + ji.2 < (g.width : Int)) ∧
           g.cells[((y : Int) + ji.1).toNat * g.width + ((x : Int) + ji.2).toNat]?
             = some CellState.Alive
        then 1 else 0) NEIGHBORS (fun a _ => by dsimp only; split_ifs <;> omega)
    omega
  · intro hx0 hy0
    subst hx0; subst hy0
    rw [key]
    simp only [NEIGHBORS, List.map_cons, List.map_nil, List.sum_cons, List.sum_nil]
    norm_num
    split_ifs <;> omega

/-- Witness for C2 at the corner of a concrete grid. -/
theorem c2_witness :
    wfState blinkerH ∧ 0 < blinkerH.width ∧ 0 < blinkerH.height ∧
    blinkerH.count_alive_neighbors 0 0 ≤ 3 :=
  ⟨by decide, by decide, by decide,
    (c2_count_alive_neighbors blinkerH 0 0 (by decide) (by decide) (by decide)).2.2 rfl rfl⟩

/-- C3: for same-dimension well-formed grids of positive width and height, one
    call of `next_state` produces a scratch buffer of unchanged length whose
    entry at linear index `y*width + x` is `next_cell_state x y` of the current
    grid, for every in-range `(x, y)` — so the truncated-chunk decomposition
    covers every cell — and the produced cells depend only on the current
    grid, never on the scratch contents. -/
theorem c3_next_state_writes (g s : ConwayState)
    (hw : 0 < g.width) (_hh : 0 < g.height) (hg : wfState g) (hs : wfState s)
    (hsw : s.width = g.width) (hsh : s.height = g.height) :
    ((g.next_state s).cells.length = s.cells.length) ∧
    (∀ x < g.width, ∀ y < g.height,
      (g.next_state s).cells[y * g.width + x]? = some (g.next_cell_state x y)) ∧
    (∀ s' : ConwayState, s'.cells.length = s.cells.length →
      (g.next_state s').cells = (g.next_state s).cells) := by
  have hslen : s.cells.length = g.width * g.height := by rw [hs, hsw, hsh]
  have hmap := next_state_cells_eq_map g 2 s.cells hw (by omega) hg hslen
  refine ⟨?_, ?_, ?_⟩
  · simp only [ConwayState.next_state]
    exact next_state_cells_length g 2 s.cells
  · intro x hx y hy
    simp only [ConwayState.next_state]
    rw [hmap, List.getElem?_map, List.getElem?_range (linear_idx_lt y x hy hx)]
    have e1 : y * g.width + x = g.width * y + x := by ring
    have hmod : (y * g.width + x) % g.width = x := by
      rw [e1, Nat.mul_add_mod, Nat.mod_eq_of_lt hx]
    have hdiv : (y * g.width + x) / g.width = y := by
      rw [e1, Nat.mul_add_div hw, Nat.div_eq_of_lt hx, Nat.add_zero]
    simp only [Option.map_some', hmod, hdiv]
  · intro s' hlen'
    simp only [ConwayState.next_state]
    rw [next_state_cells_eq_map g 2 s'.cells hw (by omega) hg (by rw [hlen', hslen]),
      hmap]

/-- Witness for C3 on a concrete 3×3 pair. -/
theorem c3_witness :
    wfState blinkerH ∧ wfState deadFive ∧
    (∀ x < blinkerH.width, ∀ y < blinkerH.height,
      (blinkerH.next_state deadFive).cells[y * blinkerH.width + x]?
        = some (blinkerH.next_cell_state x y)) :=
  ⟨by decide, by decide,
    (c3_next_state_writes blinkerH deadFive (by decide) (by decide) (by decide)
      (by decide) (by decide) (by decide)).2.1⟩

/-- The chunked stepper with an arbitrary chunk size (the source fixes
    `rows_in_chunk = 2`; `next_state = next_state_chunked 2`). -/
def ConwayState.next_state_chunked (r : Nat) (g scratch : ConwayState) : ConwayState :=
  { scratch with cells := g.next_state_cells r scratch.cells }

/-- C4: stepping with the chunked stepper and then swapping yields, as the new
    current grid, exactly the naive sequential reference (mapping
    `next_cell_state` over every position of the prior generation) — for the
    source's chunk size 2 and for every positive chunk size `r`.  (Worker
    count has no counterpart in the deterministic embedding: the chunks write
    disjoint slices, so any schedule linearizes to this result.) -/
theorem c4_chunked_refines_reference (g s : ConwayState) (r : Nat)
    (hr : 0 < r) (hw : 0 < g.width) (hg : wfState g) (hs : wfState s)
    (hsw : s.width = g.width) (hsh : s.height = g.height) :
    (g.swap_state (ConwayState.next_state_chunked r g s)).1 = referenceStep g ∧
    (g.swap_state (g.next_state s)).1 = referenceStep g := by
  have hslen : s.cells.length = g.width * g.height := by rw [hs, hsw, hsh]
  constructor
  · simp only [ConwayState.swap_state, ConwayState.next_state_chunked, referenceStep]
    rw [next_state_cells_eq_map g r s.cells hw hr hg hslen]
  · simp only [ConwayState.swap_state, ConwayState.next_state, referenceStep]
    rw [next_state_cells_eq_map g 2 s.cells hw (by omega) hg hslen]

/-- Witness for C4 with chunk sizes 1 and 2 on a concrete grid. -/
theorem c4_witness :
    0 < (1 : Nat) ∧ wfState blinkerH ∧
    (blinkerH.swap_state (ConwayState.next_state_chunked 1 blinkerH deadFive)).1
      = referenceStep blinkerH :=
  ⟨by decide, by decide,
    (c4_chunked_refines_reference blinkerH deadFive 1 (by decide) (by decide)
      (by decide) (by decide) (by decide) (by decide)).1⟩

/-- C7: `new` establishes `cells.len() = width*height`, and `next_state` and
    `swap_state` preserve it for both grids involved when the pair has
    identical dimensions. -/
theorem c7_wf_invariant (w h : Nat) (o : Nat → Bool) (g s : ConwayState)
    (hg : wfState g) (hs : wfState s)
    (hsw : s.width = g.width) (hsh : s.height = g.height) :
    wfState (ConwayState.new w h o) ∧ wfState (g.next_state s) ∧
    wfState ((g.swap_state s).1) ∧ wfState ((g.swap_state s).2) := by
  refine ⟨?_, ?_, ?_, ?_⟩
  · show (ConwayState.new w h o).cells.length = w * h
    simp [ConwayState.new]
  · show (g.next_state s).cells.length = s.width * s.height
    simp only [ConwayState.next_state]
    rw [next_state_cells_length]
    exact hs
  · show s.cells.length = g.width * g.height
    rw [hs, hsw, hsh]
  · show g.cells.length = s.width * s.height
    rw [hg, hsw, hsh]

/-- Witness for C7 on concrete grids. -/
theorem c7_witness :
    wfState blinkerH ∧ wfState deadFive ∧
    (wfState (ConwayState.new 3 4 (fun _ => true)) ∧
     wfState (blinkerH.next_state deadFive) ∧
     wfState ((blinkerH.swap_state deadFive).1) ∧
     wfState ((blinkerH.swap_state deadFive).2)) :=
  ⟨by decide, by decide,
    c7_wf_invariant 3 4 (fun _ => true) blinkerH deadFive (by decide) (by decide)
      (by decide) (by decide)⟩

/-- C5 counterexample: the source's `new` performs no dimension validation —
    called with width 0 it returns normally, yielding the degenerate grid with
    no cells instead of signaling a failure. -/
theorem c5_counterexample :
    ConwayState.new 0 5 (fun _ => false)
      = { cells := [], width := 0, height := 5 } := rfl

/-- C5 amended: `new` accepts every width and height (its parameters are
    unsigned, so negative values cannot be passed), always returns a grid with
    the requested dimensions and `width*height` cells, and in particular
    returns a degenerate cell-less grid when either dimension is zero. -/
theorem c5_amended_no_validation (w h : Nat) (o : Nat → Bool) :
    (ConwayState.new w h o).width = w ∧ (ConwayState.new w h o).height = h ∧
    (ConwayState.new w h o).cells.length = w * h ∧
    (ConwayState.new 0 h o).cells.length = 0 := by
  refine ⟨rfl, rfl, by simp [ConwayState.new], by simp [ConwayState.new]⟩

/-- C6 counterexample: there is no all-dead seed policy — `new` takes no
    policy argument and always consults the RNG, so when the RNG draws true
    the constructed grid contains Alive cells. -/
theorem c6_counterexample :
    (ConwayState.new 1 1 (fun _ => true)).cells = [CellState.Alive] ∧
    (ConwayState.new 1 1 (fun _ => true)).cells ≠ [CellState.Dead] := by
  constructor
  · rfl
  · decide

/-- C6 amended: construction has a single seeding behavior — every cell is
    independently randomized, Alive exactly when the RNG boolean draw for its
    index is true (a fair coin, i.e. probability 0.5, in the source). -/
theorem c6_amended_single_random_policy (w h : Nat) (o : Nat → Bool) (i : Nat)
    (hi : i < w * h) :
    (ConwayState.new w h o).cells[i]?
      = some (if o i then CellState.Alive else CellState.Dead) ∧
    ((ConwayState.new w h o).cells[i]? = some CellState.Alive ↔ o i = true) := by
  have hcell : (ConwayState.new w h o).cells[i]?
      = some (if o i then CellState.Alive else CellState.Dead) := by
    simp only [ConwayState.new]
    rw [List.getElem?_map, List.getElem?_range hi]
    rfl
  refine ⟨hcell, ?_⟩
  rw [hcell]
  cases ho : o i <;> simp [ho]

/-- Witness for C6's amended claim at a concrete construction. -/
theorem c6_witness :
    0 < 1 * 1 ∧
    ((ConwayState.new 1 1 (fun _ => true)).cells[0]? = some CellState.Alive ↔
      (fun _ : Nat => true) 0 = true) :=
  ⟨by decide,
    (c6_amended_single_random_policy 1 1 (fun _ => true) 0 (by decide)).2⟩

/-- C8: a single blinker centered in an otherwise-dead 5×5 grid toggles
    between horizontal and vertical every step (step = `next_state` into
    scratch followed by `swap_state`), returning to the original contents
    after 2 and hence after 4 steps. -/
theorem c8_blinker_oscillates :
    (simStep^[1] (blinkerH, deadFive)).1 = blinkerV ∧
    (simStep^[2] (blinkerH, deadFive)).1 = blinkerH ∧
    (simStep^[3] (blinkerH, deadFive)).1 = blinkerV ∧
    (simStep^[4] (blinkerH, deadFive)).1 = blinkerH := by
  decide

theorem referenceStep_wf_dims (g : ConwayState) :
    wfState (referenceStep g) ∧ (referenceStep g).width = g.width ∧
    (referenceStep g).height = g.height := by
  refine ⟨?_, rfl, rfl⟩
  show (referenceStep g).cells.length = g.width * g.height
  simp [referenceStep]

/-- One iteration of the simulation loop on a well-formed same-dimension pair:
    the new current grid is the reference step of the old current grid, and
    the new scratch holds the old current cells. -/
theorem simStep_characterization (c s : ConwayState) (hw : 0 < c.width)
    (hc : wfState c) (hs : wfState s)
    (h1 : s.width = c.width) (h2 : s.height = c.height) :
    (simStep (c, s)).1 = referenceStep c ∧
    (simStep (c, s)).2 = { s with cells := c.cells } := by
  have hslen : s.cells.length = c.width * c.height := by rw [hs, h1, h2]
  constructor
  · simp only [simStep, ConwayState.swap_state, ConwayState.next_state, referenceStep]
    rw [next_state_cells_eq_map c 2 s.cells hw (by omega) hc hslen]
  · simp only [simStep, ConwayState.swap_state, ConwayState.next_state]

/-- C9: with the lock-protected regions of the source modelled as atomic
    actions (the simulation thread mutates only its private scratch under the
    read lock and swaps under the exclusive write lock, so a reader holding
    the read lock can only observe the current grid between loop actions),
    every observable current grid equals generation `k` of the deterministic
    sequence obtained by iterating the reference step from the seed — never a
    mixture of two generations. -/
theorem c9_snapshots_single_generation (seed sc : ConwayState) (k : Nat)
    (hw : 0 < seed.width) (hg : wfState seed) (hs : wfState sc)
    (hsw : sc.width = seed.width) (hsh : sc.height = seed.height) :
    (simStep^[k] (seed, sc)).1 = referenceStep^[k] seed := by
  suffices H : ∀ n : Nat, (simStep^[n] (seed, sc)).1 = referenceStep^[n] seed ∧
      wfState (simStep^[n] (seed, sc)).1 ∧ wfState (simStep^[n] (seed, sc)).2 ∧
      (simStep^[n] (seed, sc)).1.width = seed.width ∧
      (simStep^[n] (seed, sc)).1.height = seed.height ∧
      (simStep^[n] (seed, sc)).2.width = seed.width ∧
      (simStep^[n] (seed, sc)).2.height = seed.height by
    exact (H k).1
  intro n
  induction n with
  | zero => exact ⟨rfl, hg, hs, rfl, rfl, hsw, hsh⟩
  | succ m ih =>
    obtain ⟨e1, w1, w2, d1, d2, d3, d4⟩ := ih
    have hwc : 0 < (simStep^[m] (seed, sc)).1.width := by rw [d1]; exact hw
    have hd1 : (simStep^[m] (seed, sc)).2.width = (simStep^[m] (seed, sc)).1.width := by
      rw [d3, d1]
    have hd2 : (simStep^[m] (seed, sc)).2.height = (simStep^[m] (seed, sc)).1.height := by
      rw [d4, d2]
    have hch := simStep_characterization (simStep^[m] (seed, sc)).1
      (simStep^[m] (seed, sc)).2 hwc w1 w2 hd1 hd2
    have heta : simStep (simStep^[m] (seed, sc))
        = simStep ((simStep^[m] (seed, sc)).1, (simStep^[m] (seed, sc)).2) := rfl
    rw [Function.iterate_succ_apply', Function.iterate_succ_apply', heta]
    refine ⟨?_, ?_, ?_, ?_, ?_, ?_, ?_⟩
    · rw [hch.1, e1]
    · rw [hch.1]; exact (referenceStep_wf_dims _).1
    · rw [hch.2]
      show (simStep^[m] (seed, sc)).1.cells.length
        = (simStep^[m] (seed, sc)).2.width * (simStep^[m] (seed, sc)).2.height
      rw [hd1, hd2]
      exact w1
    · rw [hch.1, (referenceStep_wf_dims _).2.1, d1]
    · rw [hch.1, (referenceStep_wf_dims _).2.2, d2]
    · rw [hch.2]; exact d3
    · rw [hch.2]; exact d4

/-- Witness for C9 at a concrete seed and two iterations. -/
theorem c9_witness :
    wfState blinkerH ∧
    (simStep^[2] (blinkerH, deadFive)).1 = referenceStep^[2] blinkerH :=
  ⟨by decide,
    c9_snapshots_single_generation blinkerH deadFive 2 (by decide) (by decide)
      (by decide) (by decide) (by decide)⟩

theorem nextCellReadsInBounds_of_lt (g : ConwayState) (x y : Nat) (hg : wfState g)
    (hx : x < g.width) (hy : y < g.height) : nextCellReadsInBounds g x y := by
  refine ⟨by rw [hg]; exact linear_idx_lt y x hy hx, ?_⟩
  intro ji _ hguard
  have h1 : ((y : Int) + ji.1).toNat < g.height := by omega
  have h2 : ((x : Int) + ji.2).toNat < g.width := by omega
  rw [hg]
  exact linear_idx_lt _ _ h1 h2

/-- C10: the chunk-count division `cells.len() / (rows_in_chunk * width)` in
    `next_state` (and the `par_chunks_mut` chunk size) has a zero divisor
    exactly when `width = 0`, so `next_state` panics on a width-0 grid — which
    `new` happily constructs — while under `width > 0` the division is
    well-defined and every slice access of `next_state`, `next_cell_state` and
    `count_alive_neighbors` is in bounds: for well-formed same-dimension
    grids, `nextStateAccessSafe` holds iff the width is positive. -/
theorem c10_division_and_bounds (g s : ConwayState)
    (hg : wfState g) (hs : wfState s)
    (hsw : s.width = g.width) (hsh : s.height = g.height) :
    (nextStateAccessSafe g s 2 ↔ 0 < g.width) ∧
    (∀ h' : Nat, ∀ o : Nat → Bool,
      (ConwayState.new 0 h' o).width = 0 ∧ wfState (ConwayState.new 0 h' o)) := by
  have hnew : ∀ h' : Nat, ∀ o : Nat → Bool,
      (ConwayState.new 0 h' o).width = 0 ∧ wfState (ConwayState.new 0 h' o) := by
    intro h' o
    refine ⟨rfl, ?_⟩
    show (ConwayState.new 0 h' o).cells.length = 0 * h'
    simp [ConwayState.new]
  refine ⟨⟨fun hsafe => by have h1 := hsafe.1; omega, fun hw => ?_⟩, hnew⟩
  have he : 0 < 2 * g.width := by omega
  have hlen : g.cells.length = g.width * g.height := hg
  have hslen : s.cells.length = g.width * g.height := by rw [hs, hsw, hsh]
  have hnc : g.cells.length / (2 * g.width) = g.height / 2 := by
    rw [hlen, Nat.mul_comm g.width g.height]
    exact Nat.mul_div_mul_right g.height 2 hw
  refine ⟨he, ?_⟩
  intro c hc j hj i hi
  have hce : c * (2 * g.width) < g.width * g.height := by
    have := (lt_ceil_div_iff c (2 * g.width) s.cells.length he).mp hc
    omega
  by_cases hfull : c < g.cells.length / (2 * g.width)
  · rw [if_pos hfull] at hj
    rw [hnc] at hfull
    have hc1 : (c + 1) * 2 ≤ g.height / 2 * 2 := Nat.mul_le_mul_right 2 hfull
    have hc2 : g.height / 2 * 2 ≤ g.height := Nat.div_mul_le_self _ 2
    have hy : j + c * 2 < g.height := by omega
    have hslice : 2 * g.width ≤ s.cells.length - c * (2 * g.width) := by
      have e1 : (c + 1) * 2 * g.width ≤ g.height / 2 * 2 * g.width :=
        Nat.mul_le_mul_right g.width hc1
      have e2 : g.height / 2 * 2 * g.width ≤ g.height * g.width :=
        Nat.mul_le_mul_right g.width hc2
      have e3 : (c + 1) * 2 * g.width = c * (2 * g.width) + 2 * g.width := by ring
      have e4 : g.height * g.width = g.width * g.height := by ring
      omega
    refine ⟨?_, nextCellReadsInBounds_of_lt g i (j + c * 2) hg hi hy⟩
    have hjw : j * g.width ≤ 1 * g.width := Nat.mul_le_mul_right g.width (by omega)
    have hmin : min (2 * g.width) (s.cells.length - c * (2 * g.width)) = 2 * g.width :=
      Nat.min_eq_left hslice
    omega
  · rw [if_neg hfull] at hj
    rw [hnc] at hfull
    have hc2 : c * 2 < g.height := by
      have h1 : c * 2 * g.width < g.height * g.width := by
        have e1 : c * (2 * g.width) = c * 2 * g.width := by ring
        have e2 : g.width * g.height = g.height * g.width := by ring
        omega
      exact Nat.lt_of_mul_lt_mul_right h1
    have hcq : c = g.height / 2 := by omega
    have hrl : (g.cells.length - g.cells.length / (2 * g.width) * (2 * g.width)) / g.width
        = g.height % 2 := by
      rw [hnc, hlen]
      have e3 : g.width * g.height
          = g.height / 2 * (2 * g.width) + g.height % 2 * g.width := by
        have e4 := Nat.div_add_mod g.height 2
        calc g.width * g.height
            = g.width * (2 * (g.height / 2) + g.height % 2) := by rw [e4]
          _ = g.height / 2 * (2 * g.width) + g.height % 2 * g.width := by ring
      have e5 : g.width * g.height - g.height / 2 * (2 * g.width)
          = g.height % 2 * g.width := by omega
      rw [e5, Nat.mul_div_cancel _ hw]
    rw [hrl] at hj
    have hm1 : g.height % 2 = 1 := by omega
    have hj0 : j = 0 := by omega
    subst hj0
    have hy : 0 + c * 2 < g.height := by omega
    refine ⟨?_, nextCellReadsInBounds_of_lt g i (0 + c * 2) hg hi hy⟩
    have hrem : s.cells.length - c * (2 * g.width) = g.width := by
      have e6 := Nat.div_add_mod g.height 2
      have e7 : c * (2 * g.width) = 2 * (g.height / 2) * g.width := by
        rw [hcq]; ring
      have e8 : g.width * g.height = 2 * (g.height / 2) * g.width + g.width := by
        calc g.width * g.height = g.width * (2 * (g.height / 2) + g.height % 2) := by
              rw [e6]
          _ = 2 * (g.height / 2) * g.width + g.width * (g.height % 2) := by ring
          _ = 2 * (g.height / 2) * g.width + g.width := by rw [hm1, Nat.mul_one]
      omega
    have hmin : min (2 * g.width) (s.cells.length - c * (2 * g.width)) = g.width := by
      rw [hrem]
      exact Nat.min_eq_right (by omega)
    omega

/-- Witness for C10 at concrete grids. -/
theorem c10_witness :
    wfState blinkerH ∧ wfState deadFive ∧
    (nextStateAccessSafe blinkerH deadFive 2 ↔ 0 < blinkerH.width) :=
  ⟨by decide, by decide,
    (c10_division_and_bounds blinkerH deadFive (by decide) (by decide)
      (by decide) (by decide)).1⟩

end RustLife
